import Mathlib

/-!
Verification development for the Search_BH relevance-ranking engine
(`src/app/functions.py`, `src/app/api/router.py`).

Modelling conventions:
* pandas dataframes of catalog rows become `List Entry` / `List Scored`;
  the fixed catalog schema (`id`, `code`, `name`, `barcode`, `producerid`)
  is a structure, so column-presence probes of the source always succeed.
* Python strings are Lean `String`s.  Character classes (`\w`, `\s`,
  case conversion, `isdigit`) model Python's Unicode semantics on the
  ASCII and Cyrillic ranges, the scripts this program handles.
* The rapidfuzz scorers (`fuzz.token_set_ratio`, `fuzz.token_sort_ratio`)
  are external library code and enter as explicit function parameters;
  `process.extract` returns all candidates at or above the cutoff sorted
  by score descending, modelled by a stable descending sort.
* The transliteration dictionaries live in `app.helpers`, which is not
  part of the source snapshot; they enter as explicit parameters.
* `pandas.sort_values` leaves the relative order of equal keys
  unspecified for its default kind; it is modelled as a stable
  descending sort (the behaviour observed on small frames).
* CPython `set` iteration order is unspecified; the query-variant set of
  `search_dataframe` is modelled as an insertion-ordered deduplicated
  list.  Every theorem below is independent of the enumeration order.
-/

namespace SearchBH

/-! ## Character classes (Python semantics on ASCII + Cyrillic) -/

/-- Python whitespace `\s` on the ASCII range. -/
def isPySpace (c : Char) : Bool :=
  c == ' ' || c == '\t' || c == '\n' || c == '\r' || c == '\x0b' || c == '\x0c'

/-- The Cyrillic block U+0400..U+04FF, the range tested by `detect_language`. -/
def isCyrChar (c : Char) : Bool :=
  decide (0x400 ≤ c.toNat ∧ c.toNat ≤ 0x4FF)

/-- ASCII lowercase letter. -/
def isAsciiLower (c : Char) : Bool :=
  decide (0x61 ≤ c.toNat ∧ c.toNat ≤ 0x7a)

/-- ASCII uppercase letter. -/
def isAsciiUpper (c : Char) : Bool :=
  decide (0x41 ≤ c.toNat ∧ c.toNat ≤ 0x5a)

/-- ASCII decimal digit. -/
def isAsciiDigit (c : Char) : Bool :=
  decide (0x30 ≤ c.toNat ∧ c.toNat ≤ 0x39)

/-- The Latin-letter test of `detect_language` (`"a" <= ch <= "z" or "A" <= ch <= "Z"`). -/
def isLatinChar (c : Char) : Bool :=
  isAsciiLower c || isAsciiUpper c

/-- Python `\w` on the modelled scripts: ASCII letters/digits, underscore,
and the Cyrillic block. -/
def isWordChar (c : Char) : Bool :=
  isLatinChar c || isAsciiDigit c || c == '_' || isCyrChar c

/-- Lowercase Cyrillic letter (а..я plus ё). -/
def isCyrLower (c : Char) : Bool :=
  decide (0x430 ≤ c.toNat ∧ c.toNat ≤ 0x44F) || decide (c.toNat = 0x451)

/-- Uppercase Cyrillic letter (А..Я plus Ё). -/
def isCyrUpper (c : Char) : Bool :=
  decide (0x410 ≤ c.toNat ∧ c.toNat ≤ 0x42F) || decide (c.toNat = 0x401)

/-- A character Python considers lowercase (modelled scripts). -/
def isLowerCased (c : Char) : Bool :=
  isAsciiLower c || isCyrLower c

/-- A character Python considers uppercase (modelled scripts). -/
def isUpperCased (c : Char) : Bool :=
  isAsciiUpper c || isCyrUpper c

/-- A cased character (modelled scripts). -/
def isCased (c : Char) : Bool :=
  isLowerCased c || isUpperCased c

/-- Python `str.lower` on one character (ASCII and Cyrillic). -/
def pyLowerChar (c : Char) : Char :=
  if isAsciiUpper c then Char.ofNat (c.toNat + 0x20)
  else if decide (0x410 ≤ c.toNat ∧ c.toNat ≤ 0x42F) then Char.ofNat (c.toNat + 0x20)
  else if c.toNat = 0x401 then Char.ofNat 0x451
  else c

/-- Python `str.upper` on one character (ASCII and Cyrillic). -/
def pyUpperChar (c : Char) : Char :=
  if isAsciiLower c then Char.ofNat (c.toNat - 0x20)
  else if decide (0x430 ≤ c.toNat ∧ c.toNat ≤ 0x44F) then Char.ofNat (c.toNat - 0x20)
  else if c.toNat = 0x451 then Char.ofNat 0x401
  else c

/-! ## Python string primitives -/

/-- Python `str.lower`. -/
def pyLower (s : String) : String :=
  String.mk (s.data.map pyLowerChar)

/-- Python `str.upper`. -/
def pyUpper (s : String) : String :=
  String.mk (s.data.map pyUpperChar)

/-- Python `str.capitalize`: first character uppercased, the rest lowercased. -/
def pyCapitalize (s : String) : String :=
  match s.data with
  | [] => ""
  | c :: cs => String.mk (pyUpperChar c :: cs.map pyLowerChar)

/-- Python `str.isupper`: at least one cased character and every cased
character uppercase. -/
def pyIsUpper (s : String) : Bool :=
  s.data.any isCased && s.data.all (fun c => !isCased c || isUpperCased c)

/-- Python `str.islower`. -/
def pyIsLower (s : String) : Bool :=
  s.data.any isCased && s.data.all (fun c => !isCased c || isLowerCased c)

/-- Python `str.isdigit` (modelled on ASCII digits). -/
def pyIsDigit (s : String) : Bool :=
  !s.data.isEmpty && s.data.all isAsciiDigit

/-- Python `str.strip()` on a character list. -/
def pyStripList (l : List Char) : List Char :=
  ((l.dropWhile isPySpace).reverse.dropWhile isPySpace).reverse

/-- Python `str.strip()`. -/
def pyStrip (s : String) : String :=
  String.mk (pyStripList s.data)

/-- Helper for `pySplit`: accumulate maximal non-whitespace runs. -/
def pySplitAux (acc : List Char) : List Char → List (List Char)
  | [] => if acc.isEmpty then [] else [acc.reverse]
  | c :: rest =>
    if isPySpace c then
      if acc.isEmpty then pySplitAux [] rest
      else acc.reverse :: pySplitAux [] rest
    else pySplitAux (c :: acc) rest

/-- Python `str.split()` / `re.split(r"\s+")` on stripped input:
the maximal whitespace-free runs, empties dropped. -/
def pySplit (s : String) : List String :=
  (pySplitAux [] s.data).map String.mk

/-- Helper for `splitOnSpace`. -/
def splitOnSpaceAux (acc : List Char) : List Char → List (List Char)
  | [] => [acc.reverse]
  | c :: rest =>
    if c == ' ' then acc.reverse :: splitOnSpaceAux [] rest
    else splitOnSpaceAux (c :: acc) rest

/-- Python `str.split(' ')`: split at every single space, keeping empties. -/
def splitOnSpace (l : List Char) : List (List Char) :=
  splitOnSpaceAux [] l

/-- Helper for `wordTokens`: accumulate maximal `\w`-runs. -/
def wordTokensAux (acc : List Char) : List Char → List (List Char)
  | [] => if acc.isEmpty then [] else [acc.reverse]
  | c :: rest =>
    if isWordChar c then wordTokensAux (c :: acc) rest
    else if acc.isEmpty then wordTokensAux [] rest
    else acc.reverse :: wordTokensAux [] rest

/-- Python `re.findall(r"\w+", s)`. -/
def wordTokens (s : String) : List String :=
  (wordTokensAux [] s.data).map String.mk

/-- Does `l` start with `sub`? -/
def startsWithChars : List Char → List Char → Bool
  | _, [] => true
  | [], _ :: _ => false
  | a :: as, b :: bs => a == b && startsWithChars as bs

/-- Substring containment on character lists (Python `in`). -/
def containsChars : List Char → List Char → Bool
  | l, sub =>
    startsWithChars l sub ||
      match l with
      | [] => false
      | _ :: t => containsChars t sub

/-- Python `needle in hay` for strings. -/
def strContains (hay needle : String) : Bool :=
  containsChars hay.data needle.data

/-- Does the slice of `l` starting at `i` equal `t`? -/
def sliceEq (l t : List Char) (i : Nat) : Bool :=
  decide ((l.drop i).take t.length = t)

/-- Is position `i` of `l` a regex word boundary (`\b`)?  A boundary holds
when the wordness of the character before `i` differs from the wordness at
`i`, out-of-range positions counting as non-word. -/
def boundaryAt (l : List Char) (i : Nat) : Bool :=
  (decide (i ≠ 0) && decide (i - 1 < l.length) && isWordChar (l.getD (i - 1) ' '))
    != (decide (i < l.length) && isWordChar (l.getD i ' '))

/-- `re.search(r"\b" + re.escape(t) + r"\b", l)` as a Bool. -/
def wordBoundedIn (t l : List Char) : Bool :=
  (List.range (l.length + 1)).any (fun i =>
    sliceEq l t i && boundaryAt l i && boundaryAt l (i + t.length))

/-- Lookbehind `(?<![\d.])` at position `i` (checks the character at `i-1`). -/
def noDigitDotBefore (l : List Char) (i : Nat) : Bool :=
  if i ≠ 0 ∧ i - 1 < l.length then
    let c := l.getD (i - 1) ' '
    !(isAsciiDigit c || c == '.')
  else true

/-- Lookahead `(?![\d.])` at position `j`. -/
def noDigitDotAt (l : List Char) (j : Nat) : Bool :=
  if j < l.length then
    let c := l.getD j ' '
    !(isAsciiDigit c || c == '.')
  else true

/-- `re.search(r"(?<![\d.])\b" + q + r"\b(?![\d.])", l)` for a digit-run `q`
(the strict numeric-token pattern of `simple_search`). -/
def digitTokenIn (t l : List Char) : Bool :=
  (List.range (l.length + 1)).any (fun i =>
    sliceEq l t i && boundaryAt l i && boundaryAt l (i + t.length)
      && noDigitDotBefore l i && noDigitDotAt l (i + t.length))

/-- `str(int(s))` for a run of ASCII digits: `none` when `s` is not such a
run (Python raises `ValueError` there). -/
def parseNatDigits (s : String) : Option Nat :=
  if !s.data.isEmpty && s.data.all isAsciiDigit then
    some (s.data.foldl (fun n c => n * 10 + (c.toNat - 0x30)) 0)
  else none

/-! ## Data model -/

/-- One catalog row (`id`, `code`, `name`, `barcode`, `producerid`), the
schema loaded by `app.database.get_dataframe`. -/
structure Entry where
  id : Nat
  code : String
  name : String
  barcode : String
  producerid : Int
  deriving DecidableEq, Repr

/-- A catalog row paired with its `Score` column. -/
structure Scored where
  entry : Entry
  score : Int
  deriving DecidableEq, Repr

/-! ## Language / layout / transliteration (`functions.py` lines 60-135) -/

/-- `detect_language`: count Cyrillic vs Latin characters; `"ru"` when the
Cyrillic count is at least the Latin count. -/
def detect_language (text : String) : String :=
  let count_cyrillic := text.data.countP isCyrChar
  let count_latin := text.data.countP isLatinChar
  if count_latin ≤ count_cyrillic then "ru" else "en"

/-- The `russian_layout` constant of `convert_layout`. -/
def russian_layout : String :=
  "йцукенгшщзхъфывапролджэячсмитьбюЙЦУКЕНГШЩЗХЪФЫВАПРОЛДЖЭЯЧСМИТЬБЮ"

/-- The `english_layout` constant of `convert_layout`. -/
def english_layout : String :=
  "qwertyuiop[]asdfghjkl;\x27zxcvbnm,.QWERTYUIOP\x7b\x7dASDFGHJKL:\x22ZXCVBNM<>"

/-- The positionally paired keyboard characters. -/
def layoutPairs : List (Char × Char) :=
  russian_layout.data.zip english_layout.data

/-- `str.maketrans(russian_layout, english_layout)` applied to one character. -/
def ruToEnChar (c : Char) : Char :=
  (layoutPairs.lookup c).getD c

/-- `str.maketrans(english_layout, russian_layout)` applied to one character. -/
def enToRuChar (c : Char) : Char :=
  ((layoutPairs.map Prod.swap).lookup c).getD c

/-- `convert_layout`: positional keyboard remap between the Cyrillic and
Latin layouts.  In the `"ru"` branch only characters inside the Cyrillic
block are translated; in the `"en"` branch the whole string is translated. -/
def convert_layout (text : String) : String :=
  if text.data.isEmpty then text
  else if detect_language text = "ru" then
    String.mk (text.data.map (fun ch => if isCyrChar ch then ruToEnChar ch else ch))
  else
    String.mk (text.data.map enToRuChar)

/-- Longest-key lookup for `custom_transliterate`: try key lengths from
`bound` down to 1 and return the replacement plus consumed length. -/
def translitTryLen (d : List (String × String)) (l : List Char) : Nat → Option (String × Nat)
  | 0 => none
  | n + 1 =>
    match d.lookup (String.mk (l.take (n + 1))) with
    | some v => some (v, n + 1)
    | none => translitTryLen d l n

/-- One step of `custom_transliterate`: greedy longest match bounded by the
longest dictionary key, falling back to the single character itself. -/
def translitStep (d : List (String × String)) (c : Char) (rest : List Char) : String × Nat :=
  let max_key_len := d.foldl (fun m p => max m p.1.length) 0
  let bound := min (rest.length + 1) max_key_len
  match translitTryLen d (c :: rest) bound with
  | some (v, n) => (v, n)
  | none => ((d.lookup (String.mk [c])).getD (String.mk [c]), 1)

/-- The scanning loop of `custom_transliterate`, with fuel (each step
consumes at least one character, so `l.length` fuel always suffices). -/
def customTranslitAux (d : List (String × String)) : Nat → List Char → String
  | 0, _ => ""
  | _, [] => ""
  | fuel + 1, c :: rest =>
    let (v, n) := translitStep d c rest
    v ++ customTranslitAux d fuel ((c :: rest).drop n)

/-- `custom_transliterate`: dictionary substitution with multi-character
keys, greedy longest-first at each position. -/
def custom_transliterate (text : String) (transliteration_dict : List (String × String)) : String :=
  if text.data.isEmpty then text
  else customTranslitAux transliteration_dict text.data.length text.data

/-- `transliterate`: lowercase, detect the script, then apply the matching
phonetic dictionary.  The dictionaries live in `app.helpers` (outside the
source snapshot) and are passed in. -/
def transliterate (ruEn enRu : List (String × String)) (text : Option String) : Option String :=
  match text with
  | none => none
  | some t =>
    if t.data.isEmpty then none
    else
      let lowered := pyLower t
      let language := detect_language lowered
      if language = "ru" then some (custom_transliterate lowered ruEn)
      else if language = "en" then some (custom_transliterate lowered enRu)
      else none

/-! ## Synonyms (`functions.py` lines 142-242) -/

/-- A raw JSON value in the synonyms file: a string, a list of strings, or
anything else (which the loader drops). -/
inductive RawVal where
  | str (s : String)
  | vals (vs : List String)
  | other
  deriving DecidableEq, Repr

/-- The observable state of the synonyms source for one loader call:
missing file, `stat` failure, unreadable/malformed JSON (with the `mtime`
the successful `stat` returned), or a good read. -/
inductive SynSource where
  | absent
  | statError
  | parseError (mtime : Nat)
  | ok (mtime : Nat) (raw : List (String × RawVal))
  deriving DecidableEq, Repr

/-- The loader's module-level cache: `_synonyms_cache` and `_synonyms_mtime`. -/
structure SynCache where
  table : List (String × List String)
  mtime : Option Nat
  deriving DecidableEq, Repr

/-- Python dict assignment on an association list (later keys overwrite). -/
def dictInsert (acc : List (String × List String)) (k : String) (v : List String) :
    List (String × List String) :=
  if acc.any (fun p => p.1 == k) then acc.map (fun p => if p.1 == k then (k, v) else p)
  else acc ++ [(k, v)]

/-- The normalization loop of `_load_synonyms`: lowercase and strip keys,
drop empty keys, wrap single strings, filter empty list elements, drop
values of any other shape. -/
def loadTable (raw : List (String × RawVal)) : List (String × List String) :=
  raw.foldl
    (fun acc kv =>
      let key_l := pyStrip (pyLower kv.1)
      if key_l.data.isEmpty then acc
      else
        match kv.2 with
        | RawVal.str v => dictInsert acc key_l [pyStrip (pyLower v)]
        | RawVal.vals vs =>
            dictInsert acc key_l
              ((vs.filter (fun v => !(pyStrip v).data.isEmpty)).map
                (fun v => pyStrip (pyLower v)))
        | RawVal.other => acc)
    []

/-- `_load_synonyms` as a state transformer: given the source state and the
current cache, return the table handed to the caller and the new cache. -/
def load_synonyms (src : SynSource) (cache : SynCache) :
    List (String × List String) × SynCache :=
  match src with
  | SynSource.absent => ([], ⟨[], none⟩)
  | SynSource.statError => (cache.table, cache)
  | SynSource.parseError m =>
    if cache.mtime = some m then (cache.table, cache)
    else (cache.table, cache)
  | SynSource.ok m raw =>
    if cache.mtime = some m then (cache.table, cache)
    else
      let synonyms := loadTable raw
      (synonyms, ⟨synonyms, some m⟩)

/-- `_match_token_case`. -/
def match_token_case (token replacement : String) : String :=
  if pyIsUpper token then pyUpper replacement
  else if pyIsUpper (String.mk (token.data.take 1)) && pyIsLower (String.mk (token.data.drop 1)) then
    pyCapitalize replacement
  else replacement

/-- `replace_synonyms_in_query`, with the loaded table as a parameter. -/
def replace_synonyms_in_query (synonyms : List (String × List String)) (query : String) : String :=
  let q := pyStrip query
  if q.data.isEmpty then ""
  else if synonyms.isEmpty then q
  else
    let tokens := pySplit q
    let result_tokens := tokens.map (fun token =>
      match synonyms.lookup (pyLower token) with
      | some (alt :: _) => match_token_case token alt
      | _ => token)
    String.intercalate " " result_tokens

/-- The character class `[\w\s.]` that `normalize_query`'s substitution
step keeps. -/
def keepChar (c : Char) : Bool :=
  isWordChar c || isPySpace c || c == '.'

/-- `re.sub(r"[^\w\s\.]+", " ", ...)`: replace each maximal run of
non-kept characters with a single space. -/
def subNonWordAux : Bool → List Char → List Char
  | _, [] => []
  | inRun, c :: rest =>
    if keepChar c then c :: subNonWordAux false rest
    else if inRun then subNonWordAux true rest
    else ' ' :: subNonWordAux true rest

/-- `re.sub(r"\s+", " ", ...)`: collapse whitespace runs to a single space. -/
def collapseWsAux : Bool → List Char → List Char
  | _, [] => []
  | inWs, c :: rest =>
    if isPySpace c then
      if inWs then collapseWsAux true rest
      else ' ' :: collapseWsAux true rest
    else c :: collapseWsAux false rest

/-- `normalize_query` (`functions.py` lines 245-265). -/
def normalize_query (raw_query : String) : String :=
  let q := pyStripList raw_query.data
  if q.isEmpty then ""
  else String.mk (collapseWsAux false (subNonWordAux false q))

/-! ## Matching primitives (`functions.py` lines 272-408) -/

/-- Stable descending insertion: `x` goes in front of the first element
whose score is not greater, so earlier-inserted elements keep their place
among equal scores. -/
def insertDesc (x : Scored) : List Scored → List Scored
  | [] => [x]
  | y :: ys => if x.score < y.score then y :: insertDesc x ys else x :: y :: ys

/-- Stable sort by `Score` descending (the model of `sort_values` /
`process.extract` result order). -/
def sortScoredDesc : List Scored → List Scored
  | [] => []
  | x :: xs => insertDesc x (sortScoredDesc xs)

/-- `drop_duplicates(subset="id")`: keep the first row for each `id`. -/
def dedupByIdAux (seen : List Nat) : List Scored → List Scored
  | [] => []
  | x :: xs =>
    if x.entry.id ∈ seen then dedupByIdAux seen xs
    else x :: dedupByIdAux (x.entry.id :: seen) xs

/-- `search_with_fuzzy` with the two rapidfuzz scorers as parameters:
keep every row whose (lowercased) name scores at least the cutoff, sorted
by score descending.  The cutoff floor rises to 55 for 3+ token queries. -/
def search_with_fuzzy (scorerSet scorerSort : String → String → Int)
    (search_query : String) (dataframe : List Entry) (threshold : Int) : List Scored :=
  let q := pyLower (pyStrip search_query)
  if q.data.isEmpty then []
  else
    let tokens := pySplit q
    let scorer := if tokens.length ≤ 2 then scorerSet else scorerSort
    let thr := if 3 ≤ tokens.length then max threshold 55 else threshold
    sortScoredDesc (dataframe.filterMap (fun e =>
      let s := scorer q (pyLower e.name)
      if thr ≤ s then some (⟨e, s⟩ : Scored) else none))

/-- `simple_search`: strict whole-word match on `name`, score 100; numeric
queries additionally exclude matches inside longer numbers. -/
def simple_search (search_query : String) (dataframe : List Entry) : List Scored :=
  let q := pyStrip search_query
  if q.data.isEmpty then []
  else
    let result :=
      if pyIsDigit q then
        dataframe.filter (fun e => digitTokenIn q.data (pyLower e.name).data)
      else
        dataframe.filter (fun e => wordBoundedIn (pyLower q).data (pyLower e.name).data)
    result.map (fun e => ⟨e, 100⟩)

/-- `merge_and_sort_dataframes`: concatenate the non-empty frames in order. -/
def merge_and_sort_dataframes (dataframes : List (List Scored)) : List Scored :=
  (dataframes.filter (fun df => !df.isEmpty)).flatten

/-- `sort_dataframes`: sort by `Score` descending, then drop duplicate `id`s
keeping the first row. -/
def sort_dataframes (df : List Scored) : List Scored :=
  dedupByIdAux [] (sortScoredDesc df)

/-! ## Boost engine (`functions.py` lines 20-24 and 415-486) -/

def WORD_MATCH_BOOST : Int := 5

def NUMBER_MATCH_BOOST : Int := 20

def PHRASE_MATCH_BOOST : Int := 15

def WORD_MISSING_PENALTY : Int := 3

def NUMBER_MISSING_PENALTY : Int := 10

/-- The `STOP_WORDS` constant. -/
def STOP_WORDS : List String :=
  ["для", "и", "или", "с", "со", "без", "на", "в", "по", "от", "до",
   "a", "an", "the", "for", "with", "of", "and", "or"]

/-- `re.findall(r"\w+", raw_query.lower())`, the token list of
`apply_token_boosts`. -/
def queryTokens (raw_query : String) : List String :=
  wordTokens (pyLower raw_query)

/-- The inner `calc_bonus` of `apply_token_boosts`: `numbers` is a set
(distinct digit tokens), `words` a list (duplicates kept), and the phrase
bonus compares the space-rejoined tokens against the lowercased name. -/
def calc_bonus (raw_query : String) (name : String) : Int :=
  let tokens := queryTokens raw_query
  let numbers := (tokens.filter pyIsDigit).dedup
  let words := tokens.filter (fun t => !pyIsDigit t && !STOP_WORDS.contains t)
  let normalized_query := String.intercalate " " tokens
  let name_low := pyLower name
  let word_hits := (words.filter (fun w => wordBoundedIn w.data name_low.data)).length
  let num_hits := (numbers.filter (fun n => wordBoundedIn n.data name_low.data)).length
  let missing_words := words.length - word_hits
  let penalty1 : Int :=
    if 2 ≤ words.length ∧ missing_words ≠ 0 then (missing_words : Int) * WORD_MISSING_PENALTY
    else 0
  let missing_numbers := numbers.length - num_hits
  let penalty2 : Int :=
    if missing_numbers ≠ 0 then (missing_numbers : Int) * NUMBER_MISSING_PENALTY else 0
  let phrase_bonus : Int :=
    if !normalized_query.data.isEmpty && strContains name_low normalized_query then
      PHRASE_MATCH_BOOST
    else 0
  (word_hits : Int) * WORD_MATCH_BOOST + (num_hits : Int) * NUMBER_MATCH_BOOST
    + phrase_bonus - (penalty1 + penalty2)

/-- `apply_token_boosts`: add `calc_bonus` of the name to every row's score;
the guards return the frame unchanged. -/
def apply_token_boosts (df : List Scored) (raw_query : String) : List Scored :=
  if df.isEmpty then df
  else if (pyStrip raw_query).data.isEmpty then df
  else if (queryTokens raw_query).isEmpty then df
  else df.map (fun r => ⟨r.entry, r.score + calc_bonus raw_query r.entry.name⟩)

/-! ## The search pipeline (`search_dataframe`, lines 493-603) -/

/-- Keep-first string deduplication (the model of the Python `set` of
query variants, in insertion order). -/
def dedupStrAux (seen : List String) : List String → List String
  | [] => []
  | x :: xs =>
    if seen.contains x then dedupStrAux seen xs
    else x :: dedupStrAux (x :: seen) xs

/-- Keep-first string deduplication. -/
def dedupStr (l : List String) : List String :=
  dedupStrAux [] l

/-- The synonym variants of the text branch: for every token with synonym
entries, the query with that token replaced by each alternative, plus each
alternative on its own. -/
def synonymVariants (synonyms : List (String × List String)) (tokens : List String) : List String :=
  (List.range tokens.length).flatMap (fun i =>
    let t_low := pyLower (tokens.getD i "")
    match synonyms.lookup t_low with
    | some alts =>
      if alts.isEmpty then []
      else alts.flatMap (fun alt => [String.intercalate " " (tokens.set i alt), alt])
    | none => [])

/-- Layout-converted and transliterated forms of every variant (kept when
non-empty and different from the variant itself). -/
def layoutTranslitVariants (ruEn enRu : List (String × String)) (variants : List String) :
    List String :=
  variants.flatMap (fun v =>
    let converted := convert_layout v
    let e1 := if !converted.data.isEmpty && converted ≠ v then [converted] else []
    let e2 :=
      match transliterate ruEn enRu (some v) with
      | some tr => if !tr.data.isEmpty && tr ≠ v then [tr] else []
      | none => []
    e1 ++ e2)

/-- The text branch of `search_dataframe`: strict first-word search, fuzzy
search over all variants, token boosts, final sort. -/
def searchTextBranch (synonyms : List (String × List String))
    (ruEn enRu : List (String × String)) (scorerSet scorerSort : String → String → Int)
    (df : List Entry) (q_norm first_token : String) (tokens : List String) : List Scored :=
  let zero_df := simple_search first_token df
  let base_variants := dedupStr ([q_norm, first_token] ++ synonymVariants synonyms tokens)
  let variants := dedupStr (base_variants ++ layoutTranslitVariants ruEn enRu base_variants)
  let fuzzy_frames :=
    (variants.map (fun v => search_with_fuzzy scorerSet scorerSort v df 40)).filter
      (fun f => !f.isEmpty)
  let combined := merge_and_sort_dataframes ([zero_df] ++ fuzzy_frames)
  let boosted := apply_token_boosts combined q_norm
  sort_dataframes boosted

/-- The numeric branch of `search_dataframe`: strip leading zeros via an
integer round-trip; a token longer than two digits is matched as a
substring of `code`, `name` or `barcode`, a shorter one against `name`
only; hits get a flat score of 120. -/
def searchNumericBranch (df : List Entry) (first_token : String) : List Scored :=
  match parseNatDigits first_token with
  | none => []
  | some n =>
    let numeric_token := Nat.repr n
    let result_df :=
      if 2 < numeric_token.length then
        df.filter (fun e =>
          strContains (pyLower e.code) numeric_token
            || strContains (pyLower e.name) numeric_token
            || strContains (pyLower e.barcode) numeric_token)
      else
        df.filter (fun e => strContains (pyLower e.name) numeric_token)
    if result_df.isEmpty then []
    else sort_dataframes (result_df.map (fun e => ⟨e, 120⟩))

/-- `search_dataframe`: normalize, substitute synonyms, then dispatch on
whether the first token is entirely digits. -/
def search_dataframe (synonyms : List (String × List String))
    (ruEn enRu : List (String × String)) (scorerSet scorerSort : String → String → Int)
    (df : List Entry) (raw_query : String) : List Scored :=
  if df.isEmpty then []
  else
    let q_norm := replace_synonyms_in_query synonyms (normalize_query raw_query)
    if q_norm.data.isEmpty then []
    else
      match pySplit q_norm with
      | [] => []
      | first_token :: rest =>
        if !pyIsDigit first_token then
          searchTextBranch synonyms ruEn enRu scorerSet scorerSort df q_norm first_token
            (first_token :: rest)
        else searchNumericBranch df first_token

/-- The aggregator of the spec: concatenate candidate sets, then sort and
deduplicate (`sort_dataframes(merge_and_sort_dataframes(...))`, the
composition both endpoints and `search_dataframe` use). -/
def aggregate (candidate_sets : List (List Scored)) : List Scored :=
  sort_dataframes (merge_and_sort_dataframes candidate_sets)

/-! ## The `/query` endpoint (`router.py` lines 74-138) -/

/-- The text branch of the `/query` endpoint, operating on the pre-filtered
frame: strict + four fuzzy searches, an optional +20 boost for rows whose
name contains the second raw token, final sort, first 96 ids. -/
def queryTextBranch (scorerSet scorerSort : String → String → Int)
    (ruEn enRu : List (String × String)) (df_filtered : List Entry)
    (q : String) (search_query : String) : List Nat :=
  let zero_df := simple_search search_query df_filtered
  let first_df := search_with_fuzzy scorerSet scorerSort search_query df_filtered 40
  let second_df :=
    search_with_fuzzy scorerSet scorerSort (convert_layout search_query) df_filtered 40
  let third_df :=
    match transliterate ruEn enRu (some search_query) with
    | some t => search_with_fuzzy scorerSet scorerSort t df_filtered 40
    | none => []
  let fourth_df :=
    match transliterate ruEn enRu (some (convert_layout (search_query))) with
    | some t => search_with_fuzzy scorerSet scorerSort t df_filtered 40
    | none => []
  let pre_result_df :=
    sort_dataframes
      (merge_and_sort_dataframes [zero_df, first_df, second_df, third_df, fourth_df])
  let fifth_df :=
    match (splitOnSpace (pyStrip q).data).get? 1 with
    | some t2 =>
      (pre_result_df.filter (fun r =>
        strContains (pyLower r.entry.name) (pyLower (String.mk t2)))).map
        (fun r => ⟨r.entry, r.score + 20⟩)
    | none => []
  let result_df :=
    sort_dataframes
      (merge_and_sort_dataframes [zero_df, first_df, second_df, third_df, fourth_df, fifth_df])
  (result_df.map (fun r => r.entry.id)).take 96

/-- The `/query` endpoint: an optional producer-id filter is applied to the
snapshot before matching, but note that the two numeric branches of the
source read from the unfiltered `df`, exactly as `router.py` does.  Returns
the first 96 result ids. -/
def query_endpoint (scorerSet scorerSort : String → String → Int)
    (ruEn enRu : List (String × String)) (df : List Entry)
    (q : String) (producerids : Option (List Int)) : List Nat :=
  let df_filtered :=
    match producerids with
    | none => df
    | some producer_ids => df.filter (fun e => producer_ids.contains e.producerid)
  let search_query := String.mk ((splitOnSpace (pyStrip q).data).headD [])
  if !pyIsDigit search_query then
    queryTextBranch scorerSet scorerSort ruEn enRu df_filtered q search_query
  else if 2 < search_query.length then
    let sq := Nat.repr ((parseNatDigits search_query).getD 0)
    let result_df := df.filter (fun e =>
      strContains (pyLower e.code) sq || strContains (pyLower e.name) sq
        || strContains (pyLower e.barcode) sq)
    (result_df.map (fun e => e.id)).take 96
  else
    let sq := Nat.repr ((parseNatDigits search_query).getD 0)
    let result_df := df.filter (fun e => strContains (pyLower e.name) sq)
    (result_df.map (fun e => e.id)).take 96

/-! ## Spec-side definitions for the boost claims -/

/-- The per-name adjustment of claim C6 exactly as the claim states it:
`+5` per distinct word token matched, `+20` per distinct digit token
matched, `+15` when the whole query string appears in the name, `-3` per
missing distinct word when the query has at least two words, `-10` per
missing distinct digit.  Compared against `calc_bonus` below. -/
def claimBonusC6 (q name : String) : Int :=
  let toks := queryTokens q
  let digit_toks := (toks.filter pyIsDigit).dedup
  let word_toks := (toks.filter (fun t => !pyIsDigit t)).dedup
  let nl := pyLower name
  let hitW := word_toks.countP (fun w => wordBoundedIn w.data nl.data)
  let hitD := digit_toks.countP (fun d => wordBoundedIn d.data nl.data)
  let phrase : Int := if strContains nl (pyLower q) then 15 else 0
  let wordPen : Int :=
    if 2 ≤ word_toks.length then 3 * ((word_toks.length : Int) - (hitW : Int)) else 0
  5 * (hitW : Int) + 20 * (hitD : Int) + phrase - wordPen
    - 10 * ((digit_toks.length : Int) - (hitD : Int))

/-- The amended per-name adjustment: word tokens are counted per
occurrence (not deduplicated) and exclude digit tokens and stop words; the
digit tokens are deduplicated; the whole-query bonus compares the
space-rejoined `\w+` tokens against the lowercased name. -/
def amendedBonusC6 (q name : String) : Int :=
  let toks := queryTokens q
  let digit_toks := (toks.filter pyIsDigit).dedup
  let word_toks := toks.filter (fun t => !pyIsDigit t && !STOP_WORDS.contains t)
  let nl := pyLower name
  let hitW := word_toks.countP (fun w => wordBoundedIn w.data nl.data)
  let hitD := digit_toks.countP (fun d => wordBoundedIn d.data nl.data)
  let joined := String.intercalate " " toks
  let phrase : Int := if !joined.data.isEmpty && strContains nl joined then 15 else 0
  let wordPen : Int :=
    if 2 ≤ word_toks.length then 3 * ((word_toks.length : Int) - (hitW : Int)) else 0
  5 * (hitW : Int) + 20 * (hitD : Int) + phrase - wordPen
    - 10 * ((digit_toks.length : Int) - (hitD : Int))

/-- Ranking order: `a` ranks at least as high as `b`. -/
def rankedGe (a b : Scored) : Prop :=
  b.score ≤ a.score

/-- The id column of a result sequence. -/
def resultIds (l : List Scored) : List Nat :=
  l.map (fun r => r.entry.id)

/-- Whitespace discipline of a collapsed string: every whitespace
character is the single space and no two adjacent characters are both
whitespace. -/
def wsOk (l : List Char) : Prop :=
  l.Chain' (fun a b => ¬(isPySpace a = true ∧ isPySpace b = true))
    ∧ ∀ c ∈ l, isPySpace c = true → c = ' '

/-- Script-pure Latin input of claim C5: every character is a Latin letter
or one of the shared punctuation keys, i.e. a character of the Latin
keyboard layout. -/
def latinPure (x : String) : Prop :=
  ∀ c ∈ x.data, c ∈ english_layout.data

/-- Script-pure Cyrillic input on which the involution holds: every
character is a Cyrillic layout letter, and at least one of them sits on a
key whose Latin-layout counterpart is a letter (rather than punctuation). -/
def cyrPure (x : String) : Prop :=
  (∀ c ∈ x.data, c ∈ russian_layout.data)
    ∧ ∃ c ∈ x.data, isLatinChar (ruToEnChar c) = true

/-! ## Lemmas on the stable descending sort and the id-deduplication -/

theorem insertDesc_mem {x y : Scored} {l : List Scored} (h : y ∈ insertDesc x l) :
    y = x ∨ y ∈ l := by
  induction l with
  | nil =>
    simp only [insertDesc, List.mem_singleton] at h
    exact Or.inl h
  | cons z zs ih =>
    simp only [insertDesc] at h
    split at h
    · rcases List.mem_cons.mp h with h1 | h1
      · exact Or.inr (List.mem_cons.mpr (Or.inl h1))
      · rcases ih h1 with h2 | h2
        · exact Or.inl h2
        · exact Or.inr (List.mem_cons.mpr (Or.inr h2))
    · rcases List.mem_cons.mp h with h1 | h1
      · exact Or.inl h1
      · exact Or.inr h1

theorem insertDesc_pairwise {x : Scored} {l : List Scored}
    (hl : l.Pairwise rankedGe) : (insertDesc x l).Pairwise rankedGe := by
  induction l with
  | nil => simp [insertDesc, rankedGe]
  | cons z zs ih =>
    rcases List.pairwise_cons.mp hl with ⟨hz, hzs⟩
    simp only [insertDesc]
    split
    · rename_i hlt
      refine List.pairwise_cons.mpr ⟨?_, ih hzs⟩
      intro y hy
      rcases insertDesc_mem hy with h1 | h1
      · subst h1
        exact le_of_lt hlt
      · exact hz y h1
    · rename_i hge
      refine List.pairwise_cons.mpr ⟨?_, hl⟩
      intro y hy
      rcases List.mem_cons.mp hy with h1 | h1
      · subst h1
        exact not_lt.mp hge
      · exact le_trans (hz y h1) (not_lt.mp hge)

theorem sortScoredDesc_pairwise (l : List Scored) : (sortScoredDesc l).Pairwise rankedGe := by
  induction l with
  | nil => simp [sortScoredDesc]
  | cons x xs ih =>
    show (insertDesc x (sortScoredDesc xs)).Pairwise rankedGe
    exact insertDesc_pairwise ih

theorem insertDesc_perm (x : Scored) (l : List Scored) : (insertDesc x l).Perm (x :: l) := by
  induction l with
  | nil => exact List.Perm.refl _
  | cons z zs ih =>
    simp only [insertDesc]
    split
    · exact (ih.cons z).trans (List.Perm.swap x z zs)
    · exact List.Perm.refl _

theorem sortScoredDesc_perm (l : List Scored) : (sortScoredDesc l).Perm l := by
  induction l with
  | nil => exact List.Perm.refl _
  | cons x xs ih =>
    show (insertDesc x (sortScoredDesc xs)).Perm (x :: xs)
    exact (insertDesc_perm x (sortScoredDesc xs)).trans (ih.cons x)

theorem sortScoredDesc_eq_self {l : List Scored} (h : l.Pairwise rankedGe) :
    sortScoredDesc l = l := by
  induction l with
  | nil => rfl
  | cons x xs ih =>
    rcases List.pairwise_cons.mp h with ⟨hx, hxs⟩
    show insertDesc x (sortScoredDesc xs) = x :: xs
    rw [ih hxs]
    cases xs with
    | nil => rfl
    | cons z zs =>
      simp only [insertDesc]
      rw [if_neg (not_lt.mpr (hx z (List.mem_cons_self z zs)))]

theorem dedupByIdAux_sublist (seen : List Nat) (l : List Scored) :
    (dedupByIdAux seen l).Sublist l := by
  induction l generalizing seen with
  | nil => simp [dedupByIdAux]
  | cons x xs ih =>
    simp only [dedupByIdAux]
    split
    · exact (ih seen).cons x
    · exact (ih _).cons₂ x

theorem mem_dedupByIdAux {x : Scored} {seen : List Nat} {l : List Scored}
    (h : x ∈ dedupByIdAux seen l) : x ∈ l ∧ x.entry.id ∉ seen := by
  induction l generalizing seen with
  | nil => simp [dedupByIdAux] at h
  | cons z zs ih =>
    simp only [dedupByIdAux] at h
    split at h
    · rcases ih h with ⟨h1, h2⟩
      exact ⟨List.mem_cons_of_mem _ h1, h2⟩
    · rename_i hz
      rcases List.mem_cons.mp h with h1 | h1
      · subst h1
        exact ⟨List.mem_cons_self _ _, hz⟩
      · rcases ih h1 with ⟨h2, h3⟩
        exact ⟨List.mem_cons_of_mem _ h2, fun hc => h3 (List.mem_cons_of_mem _ hc)⟩

theorem dedupByIdAux_nodup (seen : List Nat) (l : List Scored) :
    ((dedupByIdAux seen l).map (fun r => r.entry.id)).Nodup := by
  induction l generalizing seen with
  | nil => simp [dedupByIdAux]
  | cons z zs ih =>
    simp only [dedupByIdAux]
    split
    · exact ih seen
    · simp only [List.map_cons, List.nodup_cons]
      refine ⟨?_, ih _⟩
      intro hc
      rcases List.mem_map.mp hc with ⟨y, hy, hid⟩
      exact (mem_dedupByIdAux hy).2 (by rw [hid]; exact List.mem_cons_self _ _)

theorem dedupByIdAux_eq_self {l : List Scored} {seen : List Nat}
    (hnd : (l.map (fun r => r.entry.id)).Nodup) (hs : ∀ y ∈ l, y.entry.id ∉ seen) :
    dedupByIdAux seen l = l := by
  induction l generalizing seen with
  | nil => rfl
  | cons z zs ih =>
    simp only [List.map_cons, List.nodup_cons] at hnd
    simp only [dedupByIdAux]
    rw [if_neg (hs z (List.mem_cons_self _ _))]
    congr 1
    refine ih hnd.2 ?_
    intro y hy hc
    rcases List.mem_cons.mp hc with h1 | h1
    · exact hnd.1 (h1 ▸ List.mem_map_of_mem (fun r => r.entry.id) hy)
    · exact hs y (List.mem_cons_of_mem _ hy) h1

theorem dedupByIdAux_max {l : List Scored} (h : l.Pairwise rankedGe) :
    ∀ seen, ∀ x ∈ dedupByIdAux seen l, ∀ y ∈ l, y.entry.id = x.entry.id →
      y.score ≤ x.score := by
  induction l with
  | nil =>
    intro seen x hx
    simp [dedupByIdAux] at hx
  | cons z zs ih =>
    rcases List.pairwise_cons.mp h with ⟨hz, hzs⟩
    intro seen x hx y hy hid
    simp only [dedupByIdAux] at hx
    split at hx
    · rename_i hzin
      rcases List.mem_cons.mp hy with h1 | h1
      · exfalso
        subst h1
        exact (mem_dedupByIdAux hx).2 (hid ▸ hzin)
      · exact ih hzs seen x hx y h1 hid
    · rcases List.mem_cons.mp hx with hx1 | hx1
      · subst hx1
        rcases List.mem_cons.mp hy with h1 | h1
        · subst h1
          exact le_refl _
        · exact hz y h1
      · rcases List.mem_cons.mp hy with h1 | h1
        · exfalso
          subst h1
          exact (mem_dedupByIdAux hx1).2 (hid ▸ List.mem_cons_self _ _)
        · exact ih hzs _ x hx1 y h1 hid

theorem dedupByIdAux_covers {l : List Scored} :
    ∀ seen, ∀ y ∈ l, y.entry.id ∈ seen ∨
      ∃ x ∈ dedupByIdAux seen l, x.entry.id = y.entry.id := by
  induction l with
  | nil =>
    intro seen y hy
    simp at hy
  | cons z zs ih =>
    intro seen y hy
    simp only [dedupByIdAux]
    split
    · rename_i hz
      rcases List.mem_cons.mp hy with h1 | h1
      · subst h1
        exact Or.inl hz
      · exact ih seen y h1
    · rcases List.mem_cons.mp hy with h1 | h1
      · exact Or.inr ⟨z, List.mem_cons_self _ _, congrArg (fun r => r.entry.id) h1.symm⟩
      · rcases ih (z.entry.id :: seen) y h1 with h2 | h2
        · rcases List.mem_cons.mp h2 with h3 | h3
          · exact Or.inr ⟨z, List.mem_cons_self _ _, h3.symm⟩
          · exact Or.inl h3
        · rcases h2 with ⟨x, hx1, hx2⟩
          exact Or.inr ⟨x, List.mem_cons_of_mem _ hx1, hx2⟩

theorem sort_dataframes_pairwise (df : List Scored) :
    (sort_dataframes df).Pairwise rankedGe := by
  show (dedupByIdAux [] (sortScoredDesc df)).Pairwise rankedGe
  exact (sortScoredDesc_pairwise df).sublist (dedupByIdAux_sublist [] _)

theorem sort_dataframes_nodup (df : List Scored) : (resultIds (sort_dataframes df)).Nodup :=
  dedupByIdAux_nodup [] (sortScoredDesc df)

theorem sort_dataframes_eq_self {l : List Scored} (hp : l.Pairwise rankedGe)
    (hnd : (l.map (fun r => r.entry.id)).Nodup) : sort_dataframes l = l := by
  show dedupByIdAux [] (sortScoredDesc l) = l
  rw [sortScoredDesc_eq_self hp]
  exact dedupByIdAux_eq_self hnd (by simp)

theorem merge_and_sort_flatten (sets : List (List Scored)) :
    merge_and_sort_dataframes sets = sets.flatten := by
  induction sets with
  | nil => rfl
  | cons s ss ih =>
    simp only [merge_and_sort_dataframes, List.filter_cons] at ih ⊢
    by_cases h : s.isEmpty
    · rw [List.isEmpty_iff.mp h]
      simpa using ih
    · simp [h, ih]

theorem map_const_score_pairwise (l : List Entry) (c : Int) :
    (l.map (fun e => (⟨e, c⟩ : Scored))).Pairwise rankedGe := by
  induction l with
  | nil => simp
  | cons e es ih =>
    simp only [List.map_cons, List.pairwise_cons]
    refine ⟨?_, ih⟩
    intro y hy
    rcases List.mem_map.mp hy with ⟨e2, _, he2⟩
    rw [← he2]
    exact le_refl c

theorem filter_map_const_score_nodup {df : List Entry} (p : Entry → Bool) (c : Int)
    (h : (df.map Entry.id).Nodup) :
    (((df.filter p).map (fun e => (⟨e, c⟩ : Scored))).map (fun r => r.entry.id)).Nodup := by
  rw [List.map_map]
  have hcomp : ((fun r : Scored => r.entry.id) ∘ (fun e => (⟨e, c⟩ : Scored))) = Entry.id := rfl
  rw [hcomp]
  exact h.sublist ((df.filter_sublist).map Entry.id)

/-- Every branch of `search_dataframe` returns either the empty frame or
the output of `sort_dataframes`. -/
theorem search_dataframe_shape (synonyms : List (String × List String))
    (ruEn enRu : List (String × String)) (scorerSet scorerSort : String → String → Int)
    (df : List Entry) (raw_query : String) :
    search_dataframe synonyms ruEn enRu scorerSet scorerSort df raw_query = []
      ∨ ∃ b, search_dataframe synonyms ruEn enRu scorerSet scorerSort df raw_query
          = sort_dataframes b := by
  unfold search_dataframe
  split
  · exact Or.inl rfl
  · dsimp only
    split
    · exact Or.inl rfl
    · split
      · exact Or.inl rfl
      · split
        · exact Or.inr ⟨_, rfl⟩
        · unfold searchNumericBranch
          split
          · exact Or.inl rfl
          · dsimp only
            split
            · split
              · exact Or.inl rfl
              · exact Or.inr ⟨_, rfl⟩
            · split
              · exact Or.inl rfl
              · exact Or.inr ⟨_, rfl⟩

/-- Claim C1: every result of `search_dataframe` is non-increasing in Score
and contains each entry id at most once — for every catalog, query, synonym
table, transliteration dictionary and fuzzy scorer. -/
theorem claim_C1 (synonyms : List (String × List String)) (ruEn enRu : List (String × String))
    (scorerSet scorerSort : String → String → Int) (df : List Entry) (raw_query : String) :
    (search_dataframe synonyms ruEn enRu scorerSet scorerSort df raw_query).Pairwise rankedGe
      ∧ (resultIds (search_dataframe synonyms ruEn enRu scorerSet scorerSort df raw_query)).Nodup := by
  rcases search_dataframe_shape synonyms ruEn enRu scorerSet scorerSort df raw_query with h | ⟨b, h⟩
  · rw [h]
    exact ⟨List.Pairwise.nil, List.nodup_nil⟩
  · rw [h]
    exact ⟨sort_dataframes_pairwise b, sort_dataframes_nodup b⟩

/-- Claim C3 counterexample: with the same id arriving first with score 10
and then with score 50, the aggregator retains the score-50 occurrence, not
the first-seen one. -/
theorem claim_C3_counterexample :
    aggregate [[⟨⟨1, "", "n", "", 0⟩, 10⟩], [⟨⟨1, "", "n", "", 0⟩, 50⟩]]
        = [⟨⟨1, "", "n", "", 0⟩, 50⟩]
      ∧ (⟨⟨1, "", "n", "", 0⟩, 50⟩ : Scored) ≠ ⟨⟨1, "", "n", "", 0⟩, 10⟩ := by
  refine ⟨by decide, by decide⟩

/-- Claim C3 as amended: the aggregator concatenates the candidate sets,
sorts by Score descending and only then deduplicates by id, so the result
is sorted, id-unique, drawn from the input, and for each duplicated id the
retained candidate carries the maximal score of its occurrences; every
input id is represented.  The original claim's stable tie-break on
insertion order is dropped: `sort_values` with its default kind leaves the
relative order of equal-Score candidates unspecified, so only these
tie-order-insensitive properties are asserted. -/
theorem claim_C3 (sets : List (List Scored)) :
    (aggregate sets).Pairwise rankedGe
      ∧ (resultIds (aggregate sets)).Nodup
      ∧ (∀ x ∈ aggregate sets, x ∈ sets.flatten)
      ∧ (∀ x ∈ aggregate sets, ∀ y ∈ sets.flatten, y.entry.id = x.entry.id →
          y.score ≤ x.score)
      ∧ (∀ y ∈ sets.flatten, ∃ x ∈ aggregate sets, x.entry.id = y.entry.id) := by
  have hagg : aggregate sets = dedupByIdAux [] (sortScoredDesc sets.flatten) := by
    unfold aggregate sort_dataframes
    rw [merge_and_sort_flatten]
  refine ⟨?_, ?_, ?_, ?_, ?_⟩
  · rw [hagg]
    exact (sortScoredDesc_pairwise _).sublist (dedupByIdAux_sublist [] _)
  · rw [hagg]
    exact dedupByIdAux_nodup [] _
  · intro x hx
    rw [hagg] at hx
    exact (sortScoredDesc_perm _).subset (mem_dedupByIdAux hx).1
  · intro x hx y hy hid
    rw [hagg] at hx
    exact dedupByIdAux_max (sortScoredDesc_pairwise _) [] x hx y
      ((sortScoredDesc_perm _).symm.subset hy) hid
  · intro y hy
    have hy2 : y ∈ sortScoredDesc sets.flatten := (sortScoredDesc_perm _).symm.subset hy
    rcases dedupByIdAux_covers (l := sortScoredDesc sets.flatten) [] y hy2 with h | h
    · simp at h
    · rw [hagg]
      exact h

theorem claim_C3_witness :
    (⟨⟨1, "", "n", "", 0⟩, 10⟩ : Scored).score ≤ (⟨⟨1, "", "n", "", 0⟩, 50⟩ : Scored).score :=
  (claim_C3 [[⟨⟨1, "", "n", "", 0⟩, 10⟩], [⟨⟨1, "", "n", "", 0⟩, 50⟩]]).2.2.2.1
    ⟨⟨1, "", "n", "", 0⟩, 50⟩ (by decide) ⟨⟨1, "", "n", "", 0⟩, 10⟩ (by decide) rfl

/-- Claim C2 (code bug): with a producer filter that excludes the only
catalog row, the numeric branch of the `/query` endpoint still returns that
row, because `router.py` reads from the unfiltered `df` there.  The second
conjunct shows the pre-filtered snapshot is empty; the third that the
returned row's producer id is outside the supplied set. -/
theorem claim_C2 :
    query_endpoint (fun _ _ => 0) (fun _ _ => 0) [] []
        [⟨7, "12345", "X", "Y", 2⟩] "12345" (some [1]) = [7]
      ∧ [(⟨7, "12345", "X", "Y", 2⟩ : Entry)].filter
          (fun e => [(1 : Int)].contains e.producerid) = []
      ∧ ¬((2 : Int) ∈ [(1 : Int)]) := by
  refine ⟨by decide, by decide, by decide⟩

/-- Claim C10: the boost engine tokenizes with `\w+`, so the decimal shade
token `10.23` splits into the digit tokens `10` and `23`, each separately
earning +20 (name `Matrix 10.23`: 40) or -10 when one is missing (name
`Matrix 10.24`: 20 - 10 = 10); the +15 whole-query bonus fires only for
the space-rejoined form `10 23` (name `Matrix 10 23`: 40 + 15 = 55), not
for the period-containing normalized query even though normalization keeps
the period and the query is a verbatim substring of the first name. -/
theorem claim_C10 :
    queryTokens "10.23" = ["10", "23"]
      ∧ normalize_query "10.23" = "10.23"
      ∧ strContains (pyLower "Matrix 10.23") (normalize_query "10.23") = true
      ∧ calc_bonus "10.23" "Matrix 10.23" = 40
      ∧ calc_bonus "10.23" "Matrix 10 23" = 55
      ∧ calc_bonus "10.23" "Matrix 10.24" = 10 := by
  refine ⟨by decide, by decide, by decide, by decide, by decide, by decide⟩

/-- Claim C7: when the first token of the normalized, synonym-substituted
query is entirely digits, `search_dataframe` strips leading zeros via an
integer round-trip and returns exactly the catalog rows matched by a
substring test — over `code`, `name` and `barcode` when the stripped digit
string has more than two characters, over `name` alone otherwise — each
with the flat score 120. -/
theorem claim_C7 (synonyms : List (String × List String)) (ruEn enRu : List (String × String))
    (scorerSet scorerSort : String → String → Int) (df : List Entry) (raw_query : String)
    (first_token : String) (rest : List String) (n : Nat)
    (hids : (df.map Entry.id).Nodup)
    (hsplit : pySplit (replace_synonyms_in_query synonyms (normalize_query raw_query))
      = first_token :: rest)
    (hdig : pyIsDigit first_token = true)
    (hparse : parseNatDigits first_token = some n) :
    search_dataframe synonyms ruEn enRu scorerSet scorerSort df raw_query
      = (if 2 < (Nat.repr n).length then
          df.filter (fun e =>
            strContains (pyLower e.code) (Nat.repr n)
              || strContains (pyLower e.name) (Nat.repr n)
              || strContains (pyLower e.barcode) (Nat.repr n))
        else
          df.filter (fun e => strContains (pyLower e.name) (Nat.repr n))).map
          (fun e => ⟨e, 120⟩) := by
  have hne : ¬((replace_synonyms_in_query synonyms
      (normalize_query raw_query)).data.isEmpty = true) := by
    intro hq
    rw [List.isEmpty_iff] at hq
    rw [pySplit, hq] at hsplit
    simp [pySplitAux] at hsplit
  by_cases hdf : df.isEmpty = true
  · rw [List.isEmpty_iff.mp hdf]
    unfold search_dataframe
    simp
  · unfold search_dataframe
    rw [if_neg hdf]
    dsimp only
    rw [if_neg hne, hsplit]
    dsimp only
    rw [if_neg (by rw [hdig]; simp)]
    unfold searchNumericBranch
    rw [hparse]
    dsimp only
    by_cases hC : 2 < (Nat.repr n).length
    · simp only [if_pos hC]
      by_cases hE : (df.filter (fun e =>
          strContains (pyLower e.code) (Nat.repr n)
            || strContains (pyLower e.name) (Nat.repr n)
            || strContains (pyLower e.barcode) (Nat.repr n))).isEmpty = true
      · rw [if_pos hE, List.isEmpty_iff.mp hE]
        rfl
      · rw [if_neg hE]
        exact sort_dataframes_eq_self (map_const_score_pairwise _ _)
          (filter_map_const_score_nodup _ _ hids)
    · simp only [if_neg hC]
      by_cases hE : (df.filter (fun e =>
          strContains (pyLower e.name) (Nat.repr n))).isEmpty = true
      · rw [if_pos hE, List.isEmpty_iff.mp hE]
        rfl
      · rw [if_neg hE]
        exact sort_dataframes_eq_self (map_const_score_pairwise _ _)
          (filter_map_const_score_nodup _ _ hids)

theorem claim_C7_witness :
    search_dataframe [] [] [] (fun _ _ => 0) (fun _ _ => 0)
        [⟨1, "A1007", "Shade", "B", 0⟩, ⟨2, "X", "Gel 7", "B", 0⟩] "007"
      = [⟨⟨2, "X", "Gel 7", "B", 0⟩, 120⟩] := by
  rw [claim_C7 [] [] [] (fun _ _ => 0) (fun _ _ => 0)
    [⟨1, "A1007", "Shade", "B", 0⟩, ⟨2, "X", "Gel 7", "B", 0⟩] "007" "007" [] 7
    (by decide) (by decide) (by decide) (by decide)]
  decide

/-! ## Normalization lemmas (claim C4) -/

theorem subNonWordAux_keep : ∀ (b : Bool) (l : List Char), ∀ c ∈ subNonWordAux b l,
    keepChar c = true := by
  intro b l
  induction l generalizing b with
  | nil =>
    intro c hc
    simp [subNonWordAux] at hc
  | cons d rest ih =>
    intro c hc
    simp only [subNonWordAux] at hc
    split at hc
    · rename_i hk
      rcases List.mem_cons.mp hc with h1 | h1
      · rwa [h1]
      · exact ih false c h1
    · split at hc
      · exact ih true c hc
      · rcases List.mem_cons.mp hc with h1 | h1
        · rw [h1]
          decide
        · exact ih true c h1

theorem collapseWsAux_mem : ∀ (b : Bool) (l : List Char), ∀ c ∈ collapseWsAux b l,
    c ∈ l ∨ c = ' ' := by
  intro b l
  induction l generalizing b with
  | nil =>
    intro c hc
    simp [collapseWsAux] at hc
  | cons d rest ih =>
    intro c hc
    simp only [collapseWsAux] at hc
    split at hc
    · split at hc
      · rcases ih true c hc with h1 | h1
        · exact Or.inl (List.mem_cons_of_mem _ h1)
        · exact Or.inr h1
      · rcases List.mem_cons.mp hc with h1 | h1
        · exact Or.inr h1
        · rcases ih true c h1 with h2 | h2
          · exact Or.inl (List.mem_cons_of_mem _ h2)
          · exact Or.inr h2
    · rcases List.mem_cons.mp hc with h1 | h1
      · exact Or.inl (List.mem_cons.mpr (Or.inl h1))
      · rcases ih false c h1 with h2 | h2
        · exact Or.inl (List.mem_cons_of_mem _ h2)
        · exact Or.inr h2

theorem collapseWsAux_true_head : ∀ (l : List Char) (d : Char),
    (collapseWsAux true l).head? = some d → isPySpace d = false := by
  intro l
  induction l with
  | nil =>
    intro d hd
    simp [collapseWsAux] at hd
  | cons c rest ih =>
    intro d hd
    simp only [collapseWsAux] at hd
    split at hd
    · exact ih d (by simpa using hd)
    · rename_i hs
      simp only [List.head?_cons, Option.some.injEq] at hd
      rw [← hd]
      exact Bool.eq_false_iff.mpr hs

theorem collapseWsAux_wsOk : ∀ (b : Bool) (l : List Char), wsOk (collapseWsAux b l) := by
  intro b l
  induction l generalizing b with
  | nil => exact ⟨List.chain'_nil, by simp [collapseWsAux]⟩
  | cons c rest ih =>
    by_cases hs : isPySpace c = true
    · cases b with
      | true =>
        have : collapseWsAux true (c :: rest) = collapseWsAux true rest := by
          simp [collapseWsAux, hs]
        rw [this]
        exact ih true
      | false =>
        have : collapseWsAux false (c :: rest) = ' ' :: collapseWsAux true rest := by
          simp [collapseWsAux, hs]
        rw [this]
        constructor
        · rw [List.chain'_cons']
          refine ⟨?_, (ih true).1⟩
          intro d hd hand
          have hdf := collapseWsAux_true_head rest d hd
          rw [hand.2] at hdf
          exact absurd hdf (by decide)
        · intro x hx hxs
          rcases List.mem_cons.mp hx with h1 | h1
          · exact h1
          · exact (ih true).2 x h1 hxs
    · have : collapseWsAux b (c :: rest) = c :: collapseWsAux false rest := by
        simp [collapseWsAux, hs]
      rw [this]
      constructor
      · rw [List.chain'_cons']
        refine ⟨?_, (ih false).1⟩
        intro d hd hand
        exact hs hand.1
      · intro x hx hxs
        rcases List.mem_cons.mp hx with h1 | h1
        · exact absurd (h1 ▸ hxs) hs
        · exact (ih false).2 x h1 hxs

theorem subNonWordAux_id : ∀ (b : Bool) (l : List Char), (∀ c ∈ l, keepChar c = true) →
    subNonWordAux b l = l := by
  intro b l
  induction l generalizing b with
  | nil => intro _; rfl
  | cons c rest ih =>
    intro h
    simp only [subNonWordAux, if_pos (h c (List.mem_cons_self _ _))]
    rw [ih false (fun d hd => h d (List.mem_cons_of_mem _ hd))]

theorem collapseWsAux_id : ∀ (l : List Char), wsOk l →
    collapseWsAux false l = l ∧
      ((∀ d ∈ l.head?, isPySpace d = false) → collapseWsAux true l = l) := by
  intro l
  induction l with
  | nil => exact fun _ => ⟨rfl, fun _ => rfl⟩
  | cons c rest ih =>
    intro hws
    obtain ⟨hch, hall⟩ := hws
    rw [List.chain'_cons'] at hch
    obtain ⟨hhead, hch2⟩ := hch
    have ihr := ih ⟨hch2, fun x hx => hall x (List.mem_cons_of_mem _ hx)⟩
    constructor
    · by_cases hs : isPySpace c = true
      · have hc : c = ' ' := hall c (List.mem_cons_self _ _) hs
        have hstep : collapseWsAux false (c :: rest) = ' ' :: collapseWsAux true rest := by
          simp [collapseWsAux, hs]
        rw [hstep, ihr.2 ?hd, hc]
        case hd =>
          intro d hd
          rw [Bool.eq_false_iff]
          intro hd2
          exact hhead d hd ⟨hs, hd2⟩
      · have hstep : collapseWsAux false (c :: rest) = c :: collapseWsAux false rest := by
          simp [collapseWsAux, hs]
        rw [hstep, ihr.1]
    · intro hhd
      have hs : isPySpace c = false := hhd c (by simp)
      have hstep : collapseWsAux true (c :: rest) = c :: collapseWsAux false rest := by
        simp [collapseWsAux, hs]
      rw [hstep, ihr.1]

theorem pyStripList_within (l : List Char) : pyStripList l <:+: l := by
  unfold pyStripList
  have h2 : ((l.dropWhile isPySpace).reverse.dropWhile isPySpace).reverse
      <+: l.dropWhile isPySpace := by
    conv_rhs => rw [← List.reverse_reverse (l.dropWhile isPySpace)]
    exact List.reverse_prefix.mpr (List.dropWhile_suffix _)
  exact h2.isInfix.trans (List.dropWhile_suffix isPySpace).isInfix

theorem wsOk_within {l l2 : List Char} (h : wsOk l) (hinf : l2 <:+: l) : wsOk l2 := by
  constructor
  · exact List.Chain'.infix h.1 hinf
  · exact fun c hc => h.2 c (hinf.subset hc)

/-- Claim C4 counterexample: normalization is not idempotent, because the
trim happens before punctuation is replaced by a space, so leading or
trailing punctuation leaves an untrimmed space behind. -/
theorem claim_C4_counterexample :
    normalize_query "?a" = " a"
      ∧ normalize_query (normalize_query "?a") = "a"
      ∧ normalize_query (normalize_query "?a") ≠ normalize_query "?a" := by
  refine ⟨by decide, by decide, by decide⟩

/-- Claim C4 as amended: re-normalizing only trims the result, i.e.
`normalize ∘ normalize = trim ∘ normalize`; idempotence holds exactly when
the first pass produces an already-trimmed string. -/
theorem claim_C4 (s : String) :
    normalize_query (normalize_query s) = pyStrip (normalize_query s) := by
  by_cases h0 : (pyStripList s.data).isEmpty = true
  · have hy : normalize_query s = "" := by
      unfold normalize_query
      rw [if_pos h0]
    rw [hy]
    rfl
  · have hy : normalize_query s
        = String.mk (collapseWsAux false (subNonWordAux false (pyStripList s.data))) := by
      unfold normalize_query
      rw [if_neg h0]
    have hkeep : ∀ c ∈ collapseWsAux false (subNonWordAux false (pyStripList s.data)),
        keepChar c = true := by
      intro c hc
      rcases collapseWsAux_mem false _ c hc with h1 | h1
      · exact subNonWordAux_keep false _ c h1
      · rw [h1]
        decide
    have hws : wsOk (collapseWsAux false (subNonWordAux false (pyStripList s.data))) :=
      collapseWsAux_wsOk false _
    rw [hy]
    unfold normalize_query pyStrip
    by_cases h2 : (pyStripList (String.mk (collapseWsAux false
        (subNonWordAux false (pyStripList s.data)))).data).isEmpty = true
    · rw [if_pos h2]
      rw [List.isEmpty_iff.mp h2]
    · rw [if_neg h2]
      have hinf := pyStripList_within
        (collapseWsAux false (subNonWordAux false (pyStripList s.data)))
      rw [subNonWordAux_id false _ (fun c hc => hkeep c (hinf.subset hc))]
      rw [(collapseWsAux_id _ (wsOk_within hws hinf)).1]

/-! ## Layout-conversion lemmas (claim C5) -/

theorem stringMkData (x : String) : String.mk x.data = x := by
  cases x
  rfl

/-- Finite round-trip facts for the 64 Latin-layout characters. -/
theorem enLayout_roundtrip : ∀ c ∈ english_layout.data,
    isCyrChar (enToRuChar c) = true ∧ ruToEnChar (enToRuChar c) = c
      ∧ isLatinChar (enToRuChar c) = false ∧ isCyrChar c = false := by
  decide

/-- Finite round-trip facts for the 64 Cyrillic-layout characters. -/
theorem ruLayout_roundtrip : ∀ c ∈ russian_layout.data,
    isCyrChar c = true ∧ enToRuChar (ruToEnChar c) = c
      ∧ isLatinChar c = false ∧ isCyrChar (ruToEnChar c) = false := by
  decide

/-- Claim C5 counterexample: the involution fails on Cyrillic input.  The
letter `ж` sits on the `;` key, the converted string `;` has no letters at
all, is detected as Cyrillic and passes through unchanged; and in `я.` the
period is passed through by the Cyrillic branch but mapped to `ю` on the
way back. -/
theorem claim_C5_counterexample :
    convert_layout (convert_layout "ж") = ";" ∧ (";" : String) ≠ "ж"
      ∧ convert_layout (convert_layout "я.") = "яю" ∧ ("яю" : String) ≠ "я." := by
  refine ⟨by decide, by decide, by decide, by decide⟩

/-- Claim C5 as amended: `convert_layout` is an involution on strings made
entirely of Latin-layout characters (Latin letters plus the shared
punctuation keys), and on strings made entirely of Cyrillic layout letters
provided at least one of them maps to a Latin letter; Cyrillic strings
containing shared punctuation, or consisting solely of the letters whose
counterpart is punctuation, are not restored. -/
theorem claim_C5 (x : String) (h : latinPure x ∨ cyrPure x) :
    convert_layout (convert_layout x) = x := by
  rcases h with hlat | ⟨hcyr, w, hw, hwlat⟩
  · by_cases hex : ∃ c ∈ x.data, isLatinChar c = true
    · have hc0 : x.data.countP isCyrChar = 0 := by
        refine List.countP_eq_zero.mpr ?_
        intro c hc
        simp [(enLayout_roundtrip c (hlat c hc)).2.2.2]
      have hl1 : 0 < x.data.countP isLatinChar := List.countP_pos_iff.mpr hex
      have hdet : detect_language x = "en" := by
        unfold detect_language
        rw [hc0, if_neg (by omega)]
      have hxne : ¬(x.data.isEmpty = true) := by
        rcases hex with ⟨c, hc, _⟩
        intro he
        rw [List.isEmpty_iff.mp he] at hc
        simp at hc
      have h1 : convert_layout x = String.mk (x.data.map enToRuChar) := by
        unfold convert_layout
        rw [if_neg hxne, hdet]
        rw [if_neg (by decide)]
      rw [h1]
      have hlat0 : (x.data.map enToRuChar).countP isLatinChar = 0 := by
        refine List.countP_eq_zero.mpr ?_
        intro c' hc'
        rcases List.mem_map.mp hc' with ⟨c, hc, rfl⟩
        simp [(enLayout_roundtrip c (hlat c hc)).2.2.1]
      have hdet2 : detect_language (String.mk (x.data.map enToRuChar)) = "ru" := by
        unfold detect_language
        show (if (x.data.map enToRuChar).countP isLatinChar
            ≤ (x.data.map enToRuChar).countP isCyrChar then "ru" else "en") = "ru"
        rw [hlat0, if_pos (Nat.zero_le _)]
      have hne2 : ¬((String.mk (x.data.map enToRuChar)).data.isEmpty = true) := by
        intro hemp
        apply hxne
        rw [List.isEmpty_iff] at hemp ⊢
        exact List.map_eq_nil_iff.mp hemp
      unfold convert_layout
      rw [if_neg hne2, hdet2, if_pos rfl]
      show String.mk ((x.data.map enToRuChar).map
        (fun c => if isCyrChar c then ruToEnChar c else c)) = x
      rw [List.map_map]
      have hid : ∀ c ∈ x.data,
          ((fun c => if isCyrChar c then ruToEnChar c else c) ∘ enToRuChar) c = c := by
        intro c hc
        have f := enLayout_roundtrip c (hlat c hc)
        simp only [Function.comp_apply, f.1, if_pos, f.2.1]
      rw [List.map_congr_left hid, List.map_id', stringMkData]
    · push_neg at hex
      have hfix : convert_layout x = x := by
        by_cases hxe : x.data.isEmpty = true
        · unfold convert_layout
          rw [if_pos hxe]
        · have hl0 : x.data.countP isLatinChar = 0 := by
            refine List.countP_eq_zero.mpr ?_
            intro c hc
            exact hex c hc
          have hdet : detect_language x = "ru" := by
            unfold detect_language
            rw [hl0, if_pos (Nat.zero_le _)]
          unfold convert_layout
          rw [if_neg hxe, hdet, if_pos rfl]
          have hid : ∀ c ∈ x.data, (if isCyrChar c then ruToEnChar c else c) = c := by
            intro c hc
            rw [if_neg]
            simp [(enLayout_roundtrip c (hlat c hc)).2.2.2]
          rw [List.map_congr_left hid, List.map_id', stringMkData]
      rw [hfix, hfix]
  · have hl0 : x.data.countP isLatinChar = 0 := by
      refine List.countP_eq_zero.mpr ?_
      intro c hc
      simp [(ruLayout_roundtrip c (hcyr c hc)).2.2.1]
    have hdet : detect_language x = "ru" := by
      unfold detect_language
      rw [hl0, if_pos (Nat.zero_le _)]
    have hxne : ¬(x.data.isEmpty = true) := by
      intro he
      rw [List.isEmpty_iff.mp he] at hw
      simp at hw
    have h1 : convert_layout x = String.mk (x.data.map ruToEnChar) := by
      unfold convert_layout
      rw [if_neg hxne, hdet, if_pos rfl]
      have hid : ∀ c ∈ x.data,
          (if isCyrChar c then ruToEnChar c else c) = ruToEnChar c := by
        intro c hc
        rw [if_pos (ruLayout_roundtrip c (hcyr c hc)).1]
      rw [List.map_congr_left hid]
    rw [h1]
    have hcyr0 : (x.data.map ruToEnChar).countP isCyrChar = 0 := by
      refine List.countP_eq_zero.mpr ?_
      intro c' hc'
      rcases List.mem_map.mp hc' with ⟨c, hc, rfl⟩
      simp [(ruLayout_roundtrip c (hcyr c hc)).2.2.2]
    have hlatpos : 0 < (x.data.map ruToEnChar).countP isLatinChar := by
      refine List.countP_pos_iff.mpr ?_
      exact ⟨ruToEnChar w, List.mem_map_of_mem ruToEnChar hw, hwlat⟩
    have hdet2 : detect_language (String.mk (x.data.map ruToEnChar)) = "en" := by
      unfold detect_language
      show (if (x.data.map ruToEnChar).countP isLatinChar
          ≤ (x.data.map ruToEnChar).countP isCyrChar then "ru" else "en") = "en"
      rw [hcyr0, if_neg (by omega)]
    have hne2 : ¬((String.mk (x.data.map ruToEnChar)).data.isEmpty = true) := by
      intro hemp
      apply hxne
      rw [List.isEmpty_iff] at hemp ⊢
      exact List.map_eq_nil_iff.mp hemp
    unfold convert_layout
    rw [if_neg hne2, hdet2]
    rw [if_neg (by decide)]
    show String.mk ((x.data.map ruToEnChar).map enToRuChar) = x
    rw [List.map_map]
    have hid : ∀ c ∈ x.data, (enToRuChar ∘ ruToEnChar) c = c := by
      intro c hc
      exact (ruLayout_roundtrip c (hcyr c hc)).2.1
    rw [List.map_congr_left hid, List.map_id', stringMkData]

theorem claim_C5_witness : convert_layout (convert_layout "qwerty") = "qwerty" :=
  claim_C5 "qwerty" (Or.inl (by unfold latinPure; decide))

/-! ## Boost-engine theorems (claim C6) -/

theorem calc_bonus_eq_amended (q name : String) :
    calc_bonus q name = amendedBonusC6 q name := by
  unfold calc_bonus amendedBonusC6
  dsimp only
  rw [List.countP_eq_length_filter, List.countP_eq_length_filter]
  have hw : ((((queryTokens q).filter
        (fun t => !pyIsDigit t && !STOP_WORDS.contains t)).filter
        (fun w => wordBoundedIn w.data (pyLower name).data)).length)
      ≤ ((queryTokens q).filter
        (fun t => !pyIsDigit t && !STOP_WORDS.contains t)).length :=
    List.length_filter_le _ _
  have hd : (((queryTokens q).filter pyIsDigit).dedup.filter
        (fun n => wordBoundedIn n.data (pyLower name).data)).length
      ≤ ((queryTokens q).filter pyIsDigit).dedup.length :=
    List.length_filter_le _ _
  unfold WORD_MATCH_BOOST NUMBER_MATCH_BOOST PHRASE_MATCH_BOOST
    WORD_MISSING_PENALTY NUMBER_MISSING_PENALTY
  split_ifs <;> omega

/-- Claim C6 counterexample: the claim's "+5 per distinct word" formula
gives 5 for query `"red red"` against name `"red"`, but the engine counts
word tokens per occurrence and adds 10. -/
theorem claim_C6_counterexample :
    apply_token_boosts [⟨⟨1, "", "red", "", 0⟩, 0⟩] "red red"
      = [⟨⟨1, "", "red", "", 0⟩, 10⟩]
      ∧ claimBonusC6 "red red" "red" = 5
      ∧ (10 : Int) ≠ 0 + 5 := by
  refine ⟨by decide, by decide, by decide⟩

/-- Claim C6 as amended: the engine never filters a candidate out (the
entry column is preserved verbatim, adjusted scores may be negative), and
whenever the query survives the guards it adjusts each score by exactly:
+5 per occurrence of a non-digit non-stopword token found word-bounded in
the name, +20 per distinct digit token likewise, +15 when the
space-rejoined `\w+` tokens appear in the lowercased name, -3 per missing
word occurrence when there are at least two word occurrences, -10 per
missing distinct digit. -/
theorem claim_C6 (df : List Scored) (raw_query : String) :
    ((apply_token_boosts df raw_query).map (fun r => r.entry) = df.map (fun r => r.entry))
      ∧ ((pyStrip raw_query).data ≠ [] → queryTokens raw_query ≠ [] →
          apply_token_boosts df raw_query
            = df.map (fun r => ⟨r.entry, r.score + amendedBonusC6 raw_query r.entry.name⟩)) := by
  constructor
  · unfold apply_token_boosts
    split
    · rfl
    · split
      · rfl
      · split
        · rfl
        · rw [List.map_map]
          rfl
  · intro h1 h2
    by_cases hdf : df.isEmpty = true
    · rw [List.isEmpty_iff.mp hdf]
      simp [apply_token_boosts]
    · unfold apply_token_boosts
      rw [if_neg hdf, if_neg (by simpa [List.isEmpty_iff] using h1),
        if_neg (by simpa [List.isEmpty_iff] using h2)]
      exact List.map_congr_left (fun r _ => by rw [calc_bonus_eq_amended])

theorem claim_C6_witness :
    apply_token_boosts [⟨⟨1, "", "red", "", 0⟩, 0⟩] "red red"
      = [⟨⟨1, "", "red", "", 0⟩, 0 + amendedBonusC6 "red red" "red"⟩] := by
  rw [(claim_C6 [⟨⟨1, "", "red", "", 0⟩, 0⟩] "red red").2 (by decide) (by decide)]
  rfl

/-! ## Synonym-loader policy (claim C8) -/

/-- Claim C8: the loader's stale-but-valid cache policy.  Unchanged marker
returns the cached table and leaves the cache alone; a changed marker
re-reads and replaces the cache; a `stat` failure or a parse failure
returns the prior cache unchanged (no exception reaches the search path,
the loader is a total function of the observable source state); an absent
source resets the cache to an empty table with a cleared marker. -/
theorem claim_C8 (src : SynSource) (cache : SynCache) :
    (∀ m raw, src = SynSource.ok m raw → cache.mtime = some m →
        load_synonyms src cache = (cache.table, cache))
      ∧ (∀ m raw, src = SynSource.ok m raw → cache.mtime ≠ some m →
          load_synonyms src cache = (loadTable raw, ⟨loadTable raw, some m⟩))
      ∧ (src = SynSource.statError → load_synonyms src cache = (cache.table, cache))
      ∧ (∀ m, src = SynSource.parseError m → load_synonyms src cache = (cache.table, cache))
      ∧ (src = SynSource.absent → load_synonyms src cache = ([], ⟨[], none⟩)) := by
  refine ⟨?_, ?_, ?_, ?_, ?_⟩
  · intro m raw hsrc hm
    subst hsrc
    simp [load_synonyms, hm]
  · intro m raw hsrc hm
    subst hsrc
    simp [load_synonyms, hm]
  · intro hsrc
    subst hsrc
    rfl
  · intro m hsrc
    subst hsrc
    simp [load_synonyms]
  · intro hsrc
    subst hsrc
    rfl

theorem claim_C8_witness :
    load_synonyms (SynSource.parseError 5) ⟨[("matrix", ["socolor"])], some 3⟩
      = ([("matrix", ["socolor"])], ⟨[("matrix", ["socolor"])], some 3⟩) :=
  (claim_C8 (SynSource.parseError 5) ⟨[("matrix", ["socolor"])], some 3⟩).2.2.2.1 5 rfl

/-! ## Synonym substitution and casing (claim C9) -/

theorem lowerCased_not_upperCased {c : Char} (h : isLowerCased c = true) :
    isUpperCased c = false := by
  rw [Bool.eq_false_iff]
  intro h2
  unfold isLowerCased isAsciiLower isCyrLower at h
  unfold isUpperCased isAsciiUpper isCyrUpper at h2
  simp only [Bool.or_eq_true, decide_eq_true_eq] at h h2
  rcases h with h | h | h <;> rcases h2 with h2 | h2 | h2 <;> omega

/-- Claim C9: synonym substitution preserves the capitalization pattern:
an all-uppercase token yields the replacement uppercased; an
initial-capital-rest-lowercase token (with a nonempty rest) yields it
capitalized; the two concrete examples of the claim hold end to end, and
any other casing keeps the alternative's stored casing. -/
theorem claim_C9 :
    (∀ tok rep : String, tok.data ≠ [] → (∀ c ∈ tok.data, isUpperCased c = true) →
        match_token_case tok rep = pyUpper rep)
      ∧ (∀ (tok rep : String) (c : Char) (cs : List Char), tok.data = c :: cs →
          isUpperCased c = true → cs ≠ [] → (∀ d ∈ cs, isLowerCased d = true) →
          match_token_case tok rep = pyCapitalize rep)
      ∧ replace_synonyms_in_query [("matrix", ["socolor"])] "MATRIX 6RC" = "SOCOLOR 6RC"
      ∧ replace_synonyms_in_query [("matrix", ["socolor"])] "Matrix 6RC" = "Socolor 6RC"
      ∧ replace_synonyms_in_query [("matrix", ["socolor"])] "mATRIX 6RC" = "socolor 6RC" := by
  refine ⟨?_, ?_, by decide, by decide, by decide⟩
  · intro tok rep hne hall
    have hpy : pyIsUpper tok = true := by
      unfold pyIsUpper
      rw [Bool.and_eq_true]
      constructor
      · rw [List.any_eq_true]
        cases htok : tok.data with
        | nil => exact absurd htok hne
        | cons c cs =>
          refine ⟨c, List.mem_cons_self _ _, ?_⟩
          have := hall c (by rw [htok]; exact List.mem_cons_self _ _)
          simp [isCased, this]
      · rw [List.all_eq_true]
        intro c hc
        simp [hall c hc]
    unfold match_token_case
    rw [if_pos hpy]
  · intro tok rep c cs htok hc hcs hall
    cases cs with
    | nil => exact absurd rfl hcs
    | cons d ds =>
      have hdl : isLowerCased d = true := hall d (List.mem_cons_self _ _)
      have hdcased : isCased d = true := by simp [isCased, hdl]
      have hdnu : isUpperCased d = false := lowerCased_not_upperCased hdl
      have hpy : pyIsUpper tok = false := by
        rw [Bool.eq_false_iff]
        intro hcontra
        unfold pyIsUpper at hcontra
        rw [Bool.and_eq_true, List.all_eq_true] at hcontra
        have := hcontra.2 d
          (by rw [htok]; exact List.mem_cons_of_mem c (List.mem_cons_self _ _))
        rw [hdcased, hdnu] at this
        simp at this
      have htake : pyIsUpper (String.mk (tok.data.take 1)) = true := by
        rw [htok]
        unfold pyIsUpper
        simp [isCased, hc]
      have hdrop : pyIsLower (String.mk (tok.data.drop 1)) = true := by
        rw [htok]
        unfold pyIsLower
        rw [Bool.and_eq_true]
        constructor
        · rw [List.any_eq_true]
          exact ⟨d, List.mem_cons_self _ _, hdcased⟩
        · rw [List.all_eq_true]
          intro e he
          simp [hall e he]
      unfold match_token_case
      rw [if_neg (by simp [hpy]), if_pos (by rw [htake, hdrop]; rfl)]

theorem claim_C9_witness : match_token_case "MATRIX" "socolor" = pyUpper "socolor" :=
  claim_C9.1 "MATRIX" "socolor" (by decide) (by decide)

end SearchBH
